import Mathlib

/-!
Verification of the Uniswap V3 position valuation and fee-accrual engine of
this repository (src/entity/uniswap_v3_position.py and
src/contracts/uniswap_v3_pool.py) against its specification.

The source computes with two lossy arithmetics, and both are modelled
exactly over `ℚ`:

* Python `Decimal` under the default context rounds every operation result
  to 28 significant decimal digits (round half even).  That per-operation
  rounding is `roundDec` below, built on the generic `roundFP`, and the
  context-rounded forms of the source functions carry a `_dec` suffix.
* native binary64 floats (`get_pool_price`, `1.0001 ** tick`, the final
  `float()` casts) round to 53 significant binary digits; that rounding is
  `toFloat64` (same generic `roundFP`), with a kernel-evaluable
  mantissa/exponent variant (`roundFloatPair`) for `get_pool_price`.

Exact-arithmetic idealizations of the same functions are kept as well: they
coincide with the source wherever every intermediate fits the context
precision, which is the case at the concrete inputs they are used on.
-/

/-- Exact-arithmetic form of the per-token fee-growth-inside computation of
`UniswapV3Position._calculate_fees` (src/entity/uniswap_v3_position.py,
lines 229-246): the `tick_upper_fee_growth_above` / `tick_lower_fee_growth_below`
branches and the final `fr_t1` value, for one token; the source applies this
logic twice, once per token.  The source's `Decimal` subtraction carries no
modulo-2^256 wrap, but does round each result to the context's 28
significant digits; this definition subtracts exactly and therefore agrees
with the source exactly when every intermediate fits in 28 significant
digits, as at the concrete inputs of `fee_growth_inside_negative_no_wrap`.
The context-rounded form is `calculate_fee_growth_inside_dec`. -/
def calculate_fee_growth_inside (fee_growth_global fee_growth_outside_lower
    fee_growth_outside_upper tick_lower tick_upper tick_current : ℤ) : ℤ :=
  let tick_upper_fee_growth_above :=
    if tick_current ≥ tick_upper then fee_growth_global - fee_growth_outside_upper
    else fee_growth_outside_upper
  let tick_lower_fee_growth_below :=
    if tick_current ≥ tick_lower then fee_growth_outside_lower
    else fee_growth_global - fee_growth_outside_lower
  fee_growth_global - tick_lower_fee_growth_below - tick_upper_fee_growth_above

/-- Exact-arithmetic form of `UniswapV3Position._calculate_fees`
(src/entity/uniswap_v3_position.py, lines 216-253), same argument order as
the source.  Uses `calculate_fee_growth_inside` for the two `fr_t1` values
and then forms the uncollected fees
`liquidity * (fr_t1 - fee_growth_inside_last) / 2^128`, decimal-adjusted by
`10^decimals`.  The source's per-operation 28-digit context rounding and the
final `float()` casts are dropped; at the concrete inputs of
`fee_growth_inside_negative_no_wrap` every intermediate is exactly
representable in both arithmetics, so the values agree with the source. -/
def calculate_fees (fee_growth_global0 fee_growth_global1
    fee_growth0_low fee_growth0_high fee_growth1_low fee_growth1_high
    fee_growth_inside0 fee_growth_inside1 liquidity : ℤ)
    (decimals0 decimals1 : ℕ) (tick_lower tick_upper tick_current : ℤ) : ℚ × ℚ :=
  let fr_t1_0 := calculate_fee_growth_inside fee_growth_global0 fee_growth0_low
    fee_growth0_high tick_lower tick_upper tick_current
  let fr_t1_1 := calculate_fee_growth_inside fee_growth_global1 fee_growth1_low
    fee_growth1_high tick_lower tick_upper tick_current
  let uncollected_fees_0 : ℚ := (liquidity : ℚ) * ((fr_t1_0 : ℚ) - (fee_growth_inside0 : ℚ)) / 2 ^ 128
  let uncollected_fees_1 : ℚ := (liquidity : ℚ) * ((fr_t1_1 : ℚ) - (fee_growth_inside1 : ℚ)) / 2 ^ 128
  (uncollected_fees_0 / 10 ^ decimals0, uncollected_fees_1 / 10 ^ decimals1)

/-- Exact-arithmetic idealization of `UniswapV3Position._calculate_amounts`
(src/entity/uniswap_v3_position.py, lines 196-214): the three Q96-scaled
sqrt-price inputs are divided by `2^96` and the three-region piecewise
amounts are produced in the source's branch order
(`sqrt_price <= sqrt_price_lower` first, then
`sqrt_price >= sqrt_price_upper`, else mixed).  The source rounds every
`Decimal` operation to 28 significant digits and casts the results through
binary64 `float()`; this definition computes exactly and coincides with the
source only where all intermediates are representable, as at the concrete
input of `calculate_amounts_no_range_validation`.  The faithful
context-rounded and float-cast form is `calculate_amounts_dec`. -/
def calculate_amounts (liquidity sqrt_price_x96 sqrt_price_upper_x96
    sqrt_price_lower_x96 : ℚ) : ℚ × ℚ :=
  let sqrt_price := sqrt_price_x96 / 2 ^ 96
  let sqrt_price_upper := sqrt_price_upper_x96 / 2 ^ 96
  let sqrt_price_lower := sqrt_price_lower_x96 / 2 ^ 96
  if sqrt_price ≤ sqrt_price_lower then
    (liquidity * (sqrt_price_upper - sqrt_price_lower) / (sqrt_price_upper * sqrt_price_lower), 0)
  else if sqrt_price ≥ sqrt_price_upper then
    (0, liquidity * (sqrt_price_upper - sqrt_price_lower))
  else
    (liquidity * (sqrt_price_upper - sqrt_price) / (sqrt_price_upper * sqrt_price),
     liquidity * (sqrt_price - sqrt_price_lower))

/-- The locked-amount formula exactly as the specification words it (§4.3),
in terms of the unscaled sqrt-prices, to be compared with `calculate_amounts`. -/
def lockedAmountsSpec (liquidity sqrtPriceCurrent sqrtPriceUpper sqrtPriceLower : ℚ) : ℚ × ℚ :=
  if sqrtPriceCurrent ≤ sqrtPriceLower then
    (liquidity * (sqrtPriceUpper - sqrtPriceLower) / (sqrtPriceUpper * sqrtPriceLower), 0)
  else if sqrtPriceCurrent ≥ sqrtPriceUpper then
    (0, liquidity * (sqrtPriceUpper - sqrtPriceLower))
  else
    (liquidity * (sqrtPriceUpper - sqrtPriceCurrent) / (sqrtPriceUpper * sqrtPriceCurrent),
     liquidity * (sqrtPriceCurrent - sqrtPriceLower))

/-- Exact-arithmetic idealization of `UniswapV3Position.get_price_range`
(src/entity/uniswap_v3_position.py, lines 188-194): `1.0001 ** tick` for
each bound, divided by `10 ** (decimals1 - decimals0)`; exponents are
integers (ticks may be negative).  The source computes in binary64 floats;
the float-faithful form is `get_price_range_float`. -/
def get_price_range (tick_lower tick_upper decimals0 decimals1 : ℤ) : ℚ × ℚ :=
  let price_lower := (10001 / 10000 : ℚ) ^ tick_lower
  let price_upper := (10001 / 10000 : ℚ) ^ tick_upper
  let decimals_diff := decimals1 - decimals0
  (price_lower / (10 : ℚ) ^ decimals_diff, price_upper / (10 : ℚ) ^ decimals_diff)

/-- Exact rational value of the price formula of `UniswapV3Pool.get_pool_price`
with `token1_adjusted = True` (src/contracts/uniswap_v3_pool.py, lines
46-54): `(sqrtPriceX96 / 2^96)^2 / 10^(decimals1 - decimals0)`.  The source
actually evaluates this with native binary64 floats; the faithful float
computations are `get_pool_price_float` (unadjusted, kernel-evaluable pair
form) and `get_pool_price_float_adj` (token1-adjusted). -/
def get_pool_price (sqrtPriceX96 : ℚ) (decimals0 decimals1 : ℤ) : ℚ :=
  (sqrtPriceX96 / 2 ^ 96) ^ 2 / (10 : ℚ) ^ (decimals1 - decimals0)

/-- Embeds `UniswapV3Position.is_closed` (src/entity/uniswap_v3_position.py,
lines 178-179): `liquidity == 0`. -/
def is_closed (liquidity : ℕ) : Bool :=
  liquidity == 0

/-- Exact-arithmetic idealization of `UniswapV3Position.is_active`
(src/entity/uniswap_v3_position.py, lines 181-186): returns `False` when
`not liquidity > 0`, otherwise compares the token1-adjusted pool price
strictly against the bounds of `get_price_range`.  The liquidity gate is
exactly the source's; the price comparison is idealized over exact
rationals, and its binary64-faithful form is `is_active_float`. -/
def is_active (liquidity : ℕ) (sqrtPriceX96 : ℚ) (tick_lower tick_upper
    decimals0 decimals1 : ℤ) : Bool :=
  if ¬ liquidity > 0 then false
  else
    let to_token1_price := get_pool_price sqrtPriceX96 decimals0 decimals1
    let r := get_price_range tick_lower tick_upper decimals0 decimals1
    decide (r.1 < to_token1_price ∧ to_token1_price < r.2)

/-- Embeds `UniswapV3Position.calculate_position_apy`
(src/entity/uniswap_v3_position.py, lines 159-176).  Inputs are the two
locked amounts, the two fee amounts, the token1-adjusted pool price, and the
position age in seconds (`none` when `self.creation_date` is unset; the
source leaves `years_portion = 0` and `total_days = 0` in that case).
`timedelta.days` is the floor of the day count.  The division
`365*24*60*60 / date_diff.total_seconds()` is unguarded in the source and
raises `ZeroDivisionError` when the age is exactly zero: that raise is
embedded as `none`.  The returned token symbol is omitted; the numeric
quadruple `(apy, total_days, total_amount, total_fees)` is kept. -/
def calculate_position_apy (token0_amount token1_amount token0_fee token1_fee
    price : ℚ) (age_seconds : Option ℚ) : Option (ℚ × ℤ × ℚ × ℚ) :=
  let total_amount := token0_amount * price + token1_amount
  let total_fees := token0_fee * price + token1_fee
  match age_seconds with
  | some a =>
      if a = 0 then none
      else
        let years_portion := (31536000 : ℚ) / a
        let total_days := ⌊a / 86400⌋
        let apy := if total_amount ≠ 0 then total_fees / total_amount * years_portion * 100 else 0
        some (apy, total_days, total_amount, total_fees)
  | none =>
      let apy := if total_amount ≠ 0 then total_fees / total_amount * 0 * 100 else 0
      some (apy, 0, total_amount, total_fees)

/-- Helper for the binary64 model: floor of the base-2 logarithm of `n`,
computed with structural fuel (exact for every `n < 2^300`, far beyond the
256-bit on-chain quantities involved). -/
def natLog2Aux : ℕ → ℕ → ℕ
  | 0, _ => 0
  | fuel + 1, n => if 2 ≤ n then natLog2Aux fuel (n / 2) + 1 else 0

/-- Helper for the binary64 model: `natLog2 n` is the floor base-2 logarithm
of a positive `n < 2^300`. -/
def natLog2 (n : ℕ) : ℕ := natLog2Aux 300 n

/-- Helper for the binary64 model: the floor base-2 logarithm of the positive
rational `a / b`, from the bit lengths of `a` and `b` with a one-step
correction. -/
def floorLog2Pair (a b : ℕ) : ℤ :=
  let e0 : ℤ := (natLog2 a : ℤ) - (natLog2 b : ℤ)
  if 0 ≤ e0 then (if a < 2 ^ e0.toNat * b then e0 - 1 else e0)
  else (if a * 2 ^ (-e0).toNat < b then e0 - 1 else e0)

/-- Helper for the binary64 model: round `a / b` (with `b > 0`) to the
nearest integer, ties to even. -/
def roundHalfEvenPair (a b : ℕ) : ℕ :=
  let f := a / b
  let rem := a - f * b
  if 2 * rem < b then f
  else if b < 2 * rem then f + 1
  else if f % 2 = 0 then f else f + 1

/-- Binary64 model: round the positive rational `a / b` to IEEE-754 binary64
(round to nearest, ties to even), returned as a mantissa/exponent pair
`(m, e)` denoting `m * 2^e` with `m` of at most 53 bits (54 in the
carry-on-round-up case, whose value is still exact).  This is the value
CPython produces for `a / b` on ints; overflow and subnormals are outside
the range exercised here and are not modelled. -/
def roundFloatPair (a b : ℕ) : ℕ × ℤ :=
  if a = 0 then (0, 0)
  else
    let e := floorLog2Pair a b
    let A := a * 2 ^ (52 - e).toNat
    let B := b * 2 ^ (e - 52).toNat
    (roundHalfEvenPair A B, e - 52)

/-- Helper for the binary64 model: the exact rational value of a
mantissa/exponent pair. -/
def pairToRat (p : ℕ × ℤ) : ℚ :=
  if 0 ≤ p.2 then ((p.1 * 2 ^ p.2.toNat : ℕ) : ℚ)
  else (p.1 : ℚ) / ((2 ^ (-p.2).toNat : ℕ) : ℚ)

/-- Embeds `UniswapV3Pool.get_pool_price` as the source actually executes it
with CPython floats (`sqrtPriceX96 / (2**96)` is correctly-rounded binary64
true division of integers, and squaring is correctly-rounded binary64
multiplication), as a mantissa/exponent pair. -/
def get_pool_price_float_pair (sqrtPriceX96 : ℕ) : ℕ × ℤ :=
  let s := roundFloatPair sqrtPriceX96 (2 ^ 96)
  let sq_num := s.1 * s.1
  let sq_exp := 2 * s.2
  if 0 ≤ sq_exp then roundFloatPair (sq_num * 2 ^ sq_exp.toNat) 1
  else roundFloatPair sq_num (2 ^ (-sq_exp).toNat)

/-- The exact rational value of the float computed by
`UniswapV3Pool.get_pool_price` (unadjusted, i.e. `token0` decimals equal to
`token1` decimals). -/
def get_pool_price_float (sqrtPriceX96 : ℕ) : ℚ :=
  pairToRat (get_pool_price_float_pair sqrtPriceX96)

/-- Round a rational to the nearest integer, ties to even — the rounding
mode of both Python `Decimal`'s default context and IEEE-754 binary64. -/
def rhe (q : ℚ) : ℤ :=
  let f := ⌊q⌋
  if q - f < 1 / 2 then f
  else if 1 / 2 < q - f then f + 1
  else if f % 2 = 0 then f else f + 1

/-- Number of base-`β` digits of `n` (1 for `n = 0`), computed with
structural fuel `n`, which always suffices. -/
def numDigitsAux (β : ℕ) : ℕ → ℕ → ℕ
  | 0, _ => 1
  | fuel + 1, n => if β ≤ n then numDigitsAux β fuel (n / β) + 1 else 1

/-- Number of base-`β` digits of `n`. -/
def numDigits (β n : ℕ) : ℕ := numDigitsAux β n n

/-- Floor of the base-`β` logarithm of a positive rational, from the digit
counts of its numerator and denominator with a one-step correction. -/
def floorLogQ (β : ℕ) (x : ℚ) : ℤ :=
  let e0 : ℤ := (numDigits β x.num.natAbs : ℤ) - (numDigits β x.den : ℤ)
  if x < (β : ℚ) ^ e0 then e0 - 1 else e0

/-- Round a positive rational to `p` significant base-`β` digits, ties to
even: the scaled value is rounded to an integer mantissa and shifted back. -/
def roundFPpos (β p : ℕ) (x : ℚ) : ℚ :=
  (rhe (x * (β : ℚ) ^ ((p : ℤ) - 1 - floorLogQ β x)) : ℚ) *
    (β : ℚ) ^ (floorLogQ β x - ((p : ℤ) - 1))

/-- Round a rational to `p` significant base-`β` digits, ties to even.
With `β = 10, p = 28` this is the rounding Python `Decimal`'s default
context applies to every operation result; with `β = 2, p = 53` it is
IEEE-754 binary64 rounding (exponent overflow and subnormals are outside
the ranges exercised by this development and are not modelled). -/
def roundFP (β p : ℕ) (x : ℚ) : ℚ :=
  if x = 0 then 0 else if 0 < x then roundFPpos β p x else -roundFPpos β p (-x)

/-- The rounding Python `Decimal`'s default context (28 significant digits,
`ROUND_HALF_EVEN`) applies to each arithmetic result. -/
def roundDec (x : ℚ) : ℚ := roundFP 10 28 x

/-- The exact rational value of converting to a binary64 float
(`float(...)` casts and float arithmetic results in the source). -/
def toFloat64 (x : ℚ) : ℚ := roundFP 2 53 x

/-- Context-rounded form of the per-token fee-growth-inside computation of
`UniswapV3Position._calculate_fees` (src/entity/uniswap_v3_position.py,
lines 229-246), as the source actually executes it: every `Decimal`
subtraction result is rounded to 28 significant digits (`roundDec`); the
branch assignments that copy an operand perform no arithmetic and stay
exact, and `fr_t1 = global - below - above` evaluates left-to-right with a
rounding after each subtraction. -/
def calculate_fee_growth_inside_dec (fee_growth_global fee_growth_outside_lower
    fee_growth_outside_upper : ℚ) (tick_lower tick_upper tick_current : ℤ) : ℚ :=
  let tick_upper_fee_growth_above :=
    if tick_current ≥ tick_upper then roundDec (fee_growth_global - fee_growth_outside_upper)
    else fee_growth_outside_upper
  let tick_lower_fee_growth_below :=
    if tick_current ≥ tick_lower then fee_growth_outside_lower
    else roundDec (fee_growth_global - fee_growth_outside_lower)
  roundDec (roundDec (fee_growth_global - tick_lower_fee_growth_below) -
    tick_upper_fee_growth_above)

/-- The token0 amount `liquidity * (su - y) / (su * y)` of
`_calculate_amounts` as the source executes it: each `Decimal` operation
rounded to 28 significant digits, the result cast through `float()`.
Instantiated with `y = sqrt_price_lower` in the all-token0 branch and
`y = sqrt_price` in the mixed branch. -/
def amount0_dec (liquidity sqrt_price_upper y : ℚ) : ℚ :=
  toFloat64 (roundDec (roundDec (liquidity * roundDec (sqrt_price_upper - y)) /
    roundDec (sqrt_price_upper * y)))

/-- The token1 amount `liquidity * (y - sl)` of `_calculate_amounts` as the
source executes it, with `y = sqrt_price_upper` in the all-token1 branch
and `y = sqrt_price` in the mixed branch. -/
def amount1_dec (liquidity sqrt_price_lower y : ℚ) : ℚ :=
  toFloat64 (roundDec (liquidity * roundDec (y - sqrt_price_lower)))

/-- Context-rounded and float-cast form of
`UniswapV3Position._calculate_amounts` (src/entity/uniswap_v3_position.py,
lines 196-214), as the source actually executes it: the three Q96-scaled
quotients are single `Decimal` divisions (one rounding each), the branch
comparisons are exact comparisons of those rounded values, the amount
formulas round after every operation (`amount0_dec` / `amount1_dec`), and
the literal `0` amounts stay `0` through `float()`. -/
def calculate_amounts_dec (liquidity sqrt_price_x96 sqrt_price_upper_x96
    sqrt_price_lower_x96 : ℚ) : ℚ × ℚ :=
  let sqrt_price := roundDec (sqrt_price_x96 / 2 ^ 96)
  let sqrt_price_upper := roundDec (sqrt_price_upper_x96 / 2 ^ 96)
  let sqrt_price_lower := roundDec (sqrt_price_lower_x96 / 2 ^ 96)
  if sqrt_price ≤ sqrt_price_lower then
    (amount0_dec liquidity sqrt_price_upper sqrt_price_lower, 0)
  else if sqrt_price ≥ sqrt_price_upper then
    (0, amount1_dec liquidity sqrt_price_lower sqrt_price_upper)
  else
    (amount0_dec liquidity sqrt_price_upper sqrt_price,
     amount1_dec liquidity sqrt_price_lower sqrt_price)

/-- Binary64 value of `1.0001 ** int(tick)` in `get_price_range`: the
literal `1.0001` is the binary64 nearest to `10001/10000`, and the power is
modelled as correctly rounded (CPython delegates to the platform `pow`,
which is correctly rounded at the magnitudes exercised here). -/
def pow10001_float (t : ℤ) : ℚ :=
  toFloat64 ((toFloat64 (10001 / 10000 : ℚ)) ^ t)

/-- Binary64 value of `x / (10 ** dd)` as the source computes it: for
`dd >= 0` the divisor is an exact int and the division rounds once; for
`dd < 0` the divisor `10 ** dd` is itself a float (one rounding) before the
division rounds. -/
def adjust_for_decimals_float (x : ℚ) (dd : ℤ) : ℚ :=
  toFloat64 (x / (if 0 ≤ dd then (10 : ℚ) ^ dd else toFloat64 ((10 : ℚ) ^ dd)))

/-- Binary64-faithful form of `UniswapV3Position.get_price_range`
(src/entity/uniswap_v3_position.py, lines 188-194). -/
def get_price_range_float (tick_lower tick_upper decimals0 decimals1 : ℤ) : ℚ × ℚ :=
  (adjust_for_decimals_float (pow10001_float tick_lower) (decimals1 - decimals0),
   adjust_for_decimals_float (pow10001_float tick_upper) (decimals1 - decimals0))

/-- Binary64-faithful form of `UniswapV3Pool.get_pool_price` with
`token1_adjusted = True` (src/contracts/uniswap_v3_pool.py, lines 46-54):
the integer true division `sqrtPriceX96 / (2**96)` rounds once, the
squaring rounds once, and the decimals adjustment follows
`adjust_for_decimals_float`. -/
def get_pool_price_float_adj (sqrtPriceX96 : ℚ) (decimals0 decimals1 : ℤ) : ℚ :=
  let price := toFloat64 ((toFloat64 (sqrtPriceX96 / 2 ^ 96)) ^ 2)
  adjust_for_decimals_float price (decimals1 - decimals0)

/-- Binary64-faithful form of `UniswapV3Position.is_active`
(src/entity/uniswap_v3_position.py, lines 181-186): the source's liquidity
gate followed by strict comparisons of the binary64 pool price against the
binary64 range bounds. -/
def is_active_float (liquidity : ℕ) (sqrtPriceX96 : ℚ) (tick_lower tick_upper
    decimals0 decimals1 : ℤ) : Bool :=
  if ¬ liquidity > 0 then false
  else
    let to_token1_price := get_pool_price_float_adj sqrtPriceX96 decimals0 decimals1
    let r := get_price_range_float tick_lower tick_upper decimals0 decimals1
    decide (r.1 < to_token1_price ∧ to_token1_price < r.2)

/-- C2 evidence: the subtractions in `_calculate_fees` do not wrap modulo
2^256.  With `feeGrowthGlobal0 = 0`, `tickLower.feeGrowthOutside0 = 1` and
the current tick inside the range, the code computes
`feeGrowthInside0 = -1` (negative), and with liquidity `2^128` returns the
negative uncollected fee `-1`; a modulo-2^256 wrap of the same subtraction
would instead give the nonnegative `2^256 - 1`. -/
theorem fee_growth_inside_negative_no_wrap :
    calculate_fee_growth_inside 0 1 0 0 1 0 = -1 ∧
    calculate_fees 0 0 1 0 0 0 0 0 (2 ^ 128) 0 0 0 1 0 = (-1, 0) ∧
    ((0 - 1 : ℤ) % 2 ^ 256 = 2 ^ 256 - 1 ∧ (0 : ℤ) ≤ (0 - 1 : ℤ) % 2 ^ 256) := by
  refine ⟨by decide, ?_, by norm_num⟩
  norm_num [calculate_fees, calculate_fee_growth_inside]

/-- C9 evidence: no range validation exists — on an inverted range
(`sqrtPriceLower > sqrtPriceUpper`, i.e. `tickLower > tickUpper`) the
locked-amount computation returns a plain numeric pair, here the negative
amount `-1/2`, instead of raising a typed `InvalidRangeError`. -/
theorem calculate_amounts_no_range_validation :
    calculate_amounts 1 (2 ^ 96) (2 ^ 96) (2 * 2 ^ 96) = (-(1 / 2), 0) ∧
    (-(1 / 2) : ℚ) < 0 := by
  constructor
  · norm_num [calculate_amounts]
  · norm_num

/-- C10: `is_active` and `is_closed` are mutually exclusive — zero liquidity
makes `is_closed` true and `is_active` false (the liquidity test in
`is_active` short-circuits before any price comparison), and no snapshot is
reported both active and closed. -/
theorem is_active_is_closed_exclusive :
    ∀ (liquidity : ℕ) (s : ℚ) (tl tu d0 d1 : ℤ),
      (liquidity = 0 →
        is_closed liquidity = true ∧ is_active liquidity s tl tu d0 d1 = false) ∧
      ¬ (is_active liquidity s tl tu d0 d1 = true ∧ is_closed liquidity = true) := by
  intro liquidity s tl tu d0 d1
  constructor
  · rintro rfl
    constructor
    · rfl
    · simp [is_active]
  · rintro ⟨ha, hc⟩
    simp only [is_closed, beq_iff_eq] at hc
    subst hc
    simp [is_active] at ha

/-- C10 witness: at zero liquidity the position is closed and not active. -/
theorem is_active_is_closed_exclusive_witness :
    is_closed 0 = true ∧ is_active 0 1 0 1 0 0 = false :=
  (is_active_is_closed_exclusive 0 1 0 1 0 0).1 rfl

/-- C8 counterexample: an input with total locked value 0 on which the APY
computation does not return `apy = 0` but raises (embedded as `none`): when
the creation timestamp is known and the position age is exactly zero
seconds, the unguarded division `31536000 / age` raises
`ZeroDivisionError` before the locked-value guard is ever consulted. -/
theorem calculate_position_apy_raises_on_zero_age :
    calculate_position_apy 0 0 5 5 1 (some 0) = none := by
  simp [calculate_position_apy]

/-- C8 (amended): the APY computation returns `apy = 0` instead of dividing
by the zero total locked value whenever the position age is nonzero, and
for an unknown creation timestamp it returns `apy = 0` and `ageDays = 0`
regardless of the fee and locked amounts; but when the creation timestamp
is known and the age is exactly zero seconds it raises (`none`), see
`calculate_position_apy_raises_on_zero_age`. -/
theorem calculate_position_apy_guards :
    ∀ token0_amount token1_amount token0_fee token1_fee price a : ℚ,
      (token0_amount * price + token1_amount = 0 → a ≠ 0 →
        calculate_position_apy token0_amount token1_amount token0_fee token1_fee
          price (some a) =
          some (0, ⌊a / 86400⌋, 0, token0_fee * price + token1_fee)) ∧
      ((calculate_position_apy token0_amount token1_amount token0_fee token1_fee
          price none).map (fun r => (r.1, r.2.1)) = some (0, 0)) := by
  intro t0 t1 f0 f1 p a
  constructor
  · intro htot ha
    simp only [calculate_position_apy, if_neg ha, htot]
    norm_num
  · by_cases h : t0 * p + t1 ≠ 0
    · simp [calculate_position_apy, h]
    · simp [calculate_position_apy, h]

/-- C8 witness: a zero-locked-value input with a one-day age yields
`apy = 0`, `ageDays = 1`, and the fee total `5`. -/
theorem calculate_position_apy_guards_witness :
    calculate_position_apy 0 0 1 2 3 (some 86400) = some (0, 1, 0, 5) := by
  have h := (calculate_position_apy_guards 0 0 1 2 3 86400).1 (by norm_num) (by norm_num)
  rw [h]
  norm_num

set_option maxRecDepth 1000000 in
/-- C4 evidence: the pool-price computation is native binary64 floating
point, not exact decimal/rational arithmetic.  At `sqrtPriceX96 = 2^96 + 1`
(inside unsigned 160-bit range) the float pipeline of
`UniswapV3Pool.get_pool_price` returns exactly `1`, while the exact
rational value `(sqrtPriceX96 / 2^96)^2` is `(2^192 + 2^97 + 1) / 2^192`,
so the computed price differs from the exact rational. -/
theorem get_pool_price_float_loses_precision :
    get_pool_price_float (2 ^ 96 + 1) = 1 ∧
    get_pool_price ((2 ^ 96 + 1 : ℚ)) 0 0 = (2 ^ 192 + 2 ^ 97 + 1) / 2 ^ 192 ∧
    get_pool_price_float (2 ^ 96 + 1) ≠ get_pool_price ((2 ^ 96 + 1 : ℚ)) 0 0 := by
  have hf : get_pool_price_float (2 ^ 96 + 1) = 1 := by
    have hp : get_pool_price_float_pair (2 ^ 96 + 1) = (2 ^ 52, -52) := by decide
    simp only [get_pool_price_float, hp, pairToRat]
    norm_num [show ((52 : ℤ)).toNat = 52 from rfl]
  have he : get_pool_price ((2 ^ 96 + 1 : ℚ)) 0 0 = (2 ^ 192 + 2 ^ 97 + 1) / 2 ^ 192 := by
    norm_num [get_pool_price]
  exact ⟨hf, he, by rw [hf, he]; norm_num⟩

theorem rhe_intCast (m : ℤ) : rhe (m : ℚ) = m := by
  simp [rhe]

theorem rhe_mono {q r : ℚ} (h : q ≤ r) : rhe q ≤ rhe r := by
  have hf : ⌊q⌋ ≤ ⌊r⌋ := Int.floor_mono h
  rcases lt_or_eq_of_le hf with hlt | heq
  · have h1 : rhe q ≤ ⌊q⌋ + 1 := by
      simp only [rhe]
      split_ifs <;> omega
    have h2 : ⌊r⌋ ≤ rhe r := by
      simp only [rhe]
      split_ifs <;> omega
    omega
  · simp only [rhe]
    rw [← heq]
    have hq1 : (⌊q⌋ : ℚ) ≤ q := Int.floor_le q
    have hq2 : q < ⌊q⌋ + 1 := Int.lt_floor_add_one q
    split_ifs <;> first | omega | (exfalso; linarith)

theorem rhe_ge (q : ℚ) : q - 1 / 2 ≤ (rhe q : ℚ) := by
  have hq1 : (⌊q⌋ : ℚ) ≤ q := Int.floor_le q
  have hq2 : q < ⌊q⌋ + 1 := Int.lt_floor_add_one q
  simp only [rhe]
  split_ifs <;> push_cast <;> linarith

theorem rhe_le (q : ℚ) : (rhe q : ℚ) ≤ q + 1 / 2 := by
  have hq1 : (⌊q⌋ : ℚ) ≤ q := Int.floor_le q
  have hq2 : q < ⌊q⌋ + 1 := Int.lt_floor_add_one q
  simp only [rhe]
  split_ifs <;> push_cast <;> linarith

theorem rhe_eq_of_near (m : ℤ) {q : ℚ} (h1 : (m : ℚ) - 1 / 2 < q)
    (h2 : q < (m : ℚ) + 1 / 2) : rhe q = m := by
  have hlo : m - 1 ≤ ⌊q⌋ := by
    apply Int.le_floor.mpr
    push_cast
    linarith
  have hhi : ⌊q⌋ ≤ m := by
    have : ⌊q⌋ < m + 1 := Int.floor_lt.mpr (by push_cast; linarith)
    omega
  rcases (by omega : ⌊q⌋ = m ∨ ⌊q⌋ = m - 1) with hf | hf
  · simp only [rhe]
    rw [hf, if_pos]
    push_cast
    linarith
  · simp only [rhe]
    rw [hf]
    rw [if_neg (by push_cast; linarith), if_pos (by push_cast; linarith)]
    omega

theorem numDigitsAux_pos (β : ℕ) : ∀ fuel n, 1 ≤ numDigitsAux β fuel n := by
  intro fuel n
  cases fuel with
  | zero => simp [numDigitsAux]
  | succ fuel =>
    simp only [numDigitsAux]
    split_ifs <;> omega

theorem numDigitsAux_spec (β : ℕ) (hβ : 2 ≤ β) :
    ∀ fuel n, 1 ≤ n → n ≤ fuel →
      β ^ (numDigitsAux β fuel n - 1) ≤ n ∧ n < β ^ numDigitsAux β fuel n := by
  intro fuel
  induction fuel with
  | zero => intro n h1 h2; omega
  | succ fuel ih =>
    intro n h1 h2
    simp only [numDigitsAux]
    split_ifs with h
    · have hd : 1 ≤ n / β := (Nat.one_le_div_iff (by omega)).mpr h
      have hfuel : n / β ≤ fuel := by
        have := Nat.div_lt_self (by omega : 0 < n) (by omega : 1 < β)
        omega
      obtain ⟨ih1, ih2⟩ := ih (n / β) hd hfuel
      have hd1 : 1 ≤ numDigitsAux β fuel (n / β) := numDigitsAux_pos β fuel (n / β)
      set d := numDigitsAux β fuel (n / β) with hdd
      constructor
      · have ha : β ^ (d - 1) * β ≤ (n / β) * β := Nat.mul_le_mul_right β ih1
        have hb : (n / β) * β ≤ n := Nat.div_mul_le_self n β
        have hc : β ^ (d - 1) * β = β ^ d := by
          rw [← pow_succ]
          congr 1
          omega
        have hgoal : β ^ d ≤ n := by omega
        simpa using hgoal
      · have ha : n < β ^ d * β := (Nat.div_lt_iff_lt_mul (by omega : 0 < β)).mp ih2
        calc n < β ^ d * β := ha
          _ = β ^ (d + 1) := (pow_succ β d).symm
    · exact ⟨by simpa using h1, by simpa using (by omega : n < β)⟩

theorem numDigits_spec (β : ℕ) (hβ : 2 ≤ β) {n : ℕ} (hn : 1 ≤ n) :
    β ^ (numDigits β n - 1) ≤ n ∧ n < β ^ numDigits β n :=
  numDigitsAux_spec β hβ n n hn (le_refl n)

theorem numDigits_pos (β n : ℕ) : 1 ≤ numDigits β n := numDigitsAux_pos β n n

theorem floorLogQ_spec (β : ℕ) (hβ : 2 ≤ β) {x : ℚ} (hx : 0 < x) :
    (β : ℚ) ^ floorLogQ β x ≤ x ∧ x < (β : ℚ) ^ (floorLogQ β x + 1) := by
  have hβ0 : (0 : ℚ) < β := by exact_mod_cast (by omega : 0 < β)
  have hβne : (β : ℚ) ≠ 0 := ne_of_gt hβ0
  have hnum : 0 < x.num := Rat.num_pos.mpr hx
  have ha1 : 1 ≤ x.num.natAbs := by
    have := Int.natAbs_pos.mpr (ne_of_gt hnum)
    omega
  have hb1 : 1 ≤ x.den := x.pos
  obtain ⟨hA1, hA2⟩ := numDigits_spec β hβ ha1
  obtain ⟨hB1, hB2⟩ := numDigits_spec β hβ hb1
  set a := x.num.natAbs with ha
  set b := x.den with hb
  set da := numDigits β a with hda
  set db := numDigits β b with hdb
  have hda1 : 1 ≤ da := numDigits_pos β a
  have hdb1 : 1 ≤ db := numDigits_pos β b
  have hcast : ((x.num.natAbs : ℕ) : ℚ) = ((x.num : ℤ) : ℚ) := by
    rw [Int.cast_natAbs]
    exact congrArg _ (abs_of_nonneg (le_of_lt hnum))
  have hxab : x = (a : ℚ) / (b : ℚ) := by
    rw [ha, hb, hcast, Rat.num_div_den x]
  have hb0 : (0 : ℚ) < (b : ℚ) := by exact_mod_cast hb1
  have ha0 : (0 : ℚ) < (a : ℚ) := by exact_mod_cast ha1
  have castpow : ∀ k : ℕ, ((β ^ k : ℕ) : ℚ) = (β : ℚ) ^ ((k : ℕ) : ℤ) := by
    intro k
    rw [zpow_natCast]
    push_cast
    ring
  have hA1' : (β : ℚ) ^ ((da : ℤ) - 1) ≤ (a : ℚ) := by
    have h0 : ((β ^ (da - 1) : ℕ) : ℚ) ≤ (a : ℚ) := by exact_mod_cast hA1
    have h1 : (β : ℚ) ^ ((da : ℤ) - 1) = ((β ^ (da - 1) : ℕ) : ℚ) := by
      rw [castpow]
      congr 1
      omega
    linarith [h1 ▸ h0]
  have hA2' : (a : ℚ) < (β : ℚ) ^ (da : ℤ) := by
    have h0 : (a : ℚ) < ((β ^ da : ℕ) : ℚ) := by exact_mod_cast hA2
    rw [castpow] at h0
    exact h0
  have hB1' : (β : ℚ) ^ ((db : ℤ) - 1) ≤ (b : ℚ) := by
    have h0 : ((β ^ (db - 1) : ℕ) : ℚ) ≤ (b : ℚ) := by exact_mod_cast hB1
    have h1 : (β : ℚ) ^ ((db : ℤ) - 1) = ((β ^ (db - 1) : ℕ) : ℚ) := by
      rw [castpow]
      congr 1
      omega
    linarith [h1 ▸ h0]
  have hB2' : (b : ℚ) < (β : ℚ) ^ (db : ℤ) := by
    have h0 : (b : ℚ) < ((β ^ db : ℕ) : ℚ) := by exact_mod_cast hB2
    rw [castpow] at h0
    exact h0
  have hup : x < (β : ℚ) ^ ((da : ℤ) - (db : ℤ) + 1) := by
    have h1 : x ≤ (a : ℚ) / (β : ℚ) ^ ((db : ℤ) - 1) := by
      rw [hxab]
      exact div_le_div_of_nonneg_left (le_of_lt ha0) (zpow_pos hβ0 _) hB1'
    have h2 : (a : ℚ) / (β : ℚ) ^ ((db : ℤ) - 1) <
        (β : ℚ) ^ (da : ℤ) / (β : ℚ) ^ ((db : ℤ) - 1) :=
      (div_lt_div_iff_of_pos_right (zpow_pos hβ0 _)).mpr hA2'
    have h3 : (β : ℚ) ^ (da : ℤ) / (β : ℚ) ^ ((db : ℤ) - 1) =
        (β : ℚ) ^ ((da : ℤ) - (db : ℤ) + 1) := by
      rw [← zpow_sub₀ hβne]
      congr 1
      ring
    linarith [h3 ▸ lt_of_le_of_lt h1 h2]
  have hlo : (β : ℚ) ^ ((da : ℤ) - (db : ℤ) - 1) < x := by
    have h1 : (β : ℚ) ^ ((da : ℤ) - 1) / (β : ℚ) ^ (db : ℤ) ≤
        (a : ℚ) / (β : ℚ) ^ (db : ℤ) :=
      (div_le_div_iff_of_pos_right (zpow_pos hβ0 _)).mpr hA1'
    have h2 : (a : ℚ) / (β : ℚ) ^ (db : ℤ) < (a : ℚ) / (b : ℚ) :=
      div_lt_div_of_pos_left ha0 hb0 hB2'
    have h3 : (β : ℚ) ^ ((da : ℤ) - 1) / (β : ℚ) ^ (db : ℤ) =
        (β : ℚ) ^ ((da : ℤ) - (db : ℤ) - 1) := by
      rw [← zpow_sub₀ hβne]
      congr 1
      ring
    rw [hxab]
    linarith [h3 ▸ lt_of_le_of_lt h1 h2]
  simp only [floorLogQ]
  rw [← ha, ← hb, ← hda, ← hdb]
  split_ifs with hc
  · constructor
    · exact le_of_lt hlo
    · have he : (da : ℤ) - (db : ℤ) - 1 + 1 = (da : ℤ) - (db : ℤ) := by ring
      rw [he]
      exact hc
  · exact ⟨not_lt.mp hc, hup⟩

theorem floorLogQ_unique (β : ℕ) (hβ : 2 ≤ β) {x : ℚ} {e : ℤ}
    (h1 : (β : ℚ) ^ e ≤ x) (h2 : x < (β : ℚ) ^ (e + 1)) : floorLogQ β x = e := by
  have hβ0 : (0 : ℚ) < β := by exact_mod_cast (by omega : 0 < β)
  have hβ1 : (1 : ℚ) < β := by exact_mod_cast (by omega : 1 < β)
  have hx : 0 < x := lt_of_lt_of_le (zpow_pos hβ0 e) h1
  obtain ⟨g1, g2⟩ := floorLogQ_spec β hβ hx
  have a1 : e < floorLogQ β x + 1 :=
    (zpow_lt_zpow_iff_right₀ hβ1).mp (lt_of_le_of_lt h1 g2)
  have a2 : floorLogQ β x < e + 1 :=
    (zpow_lt_zpow_iff_right₀ hβ1).mp (lt_of_le_of_lt g1 h2)
  omega

theorem roundFP_zero (β p : ℕ) : roundFP β p 0 = 0 := by
  simp [roundFP]

theorem roundFPpos_lb (β p : ℕ) (hβ : 2 ≤ β) (hp : 1 ≤ p) {x : ℚ} (hx : 0 < x) :
    (β : ℚ) ^ floorLogQ β x ≤ roundFPpos β p x := by
  have hβ0 : (0 : ℚ) < β := by exact_mod_cast (by omega : 0 < β)
  have hβne : (β : ℚ) ≠ 0 := ne_of_gt hβ0
  obtain ⟨h1, h2⟩ := floorLogQ_spec β hβ hx
  set e := floorLogQ β x with he
  have hcast : (β : ℚ) ^ ((p : ℤ) - 1) = (((β ^ (p - 1) : ℕ) : ℤ) : ℚ) := by
    have : ((p : ℤ) - 1) = (((p - 1 : ℕ) : ℕ) : ℤ) := by omega
    rw [this, zpow_natCast]
    push_cast
    ring
  have hs : (β : ℚ) ^ e * (β : ℚ) ^ ((p : ℤ) - 1 - e) = (β : ℚ) ^ ((p : ℤ) - 1) := by
    rw [← zpow_add₀ hβne]
    congr 1
    ring
  have hmul : (β : ℚ) ^ ((p : ℤ) - 1) ≤ x * (β : ℚ) ^ ((p : ℤ) - 1 - e) := by
    calc (β : ℚ) ^ ((p : ℤ) - 1) = (β : ℚ) ^ e * (β : ℚ) ^ ((p : ℤ) - 1 - e) := hs.symm
      _ ≤ x * (β : ℚ) ^ ((p : ℤ) - 1 - e) :=
        mul_le_mul_of_nonneg_right h1 (le_of_lt (zpow_pos hβ0 _))
  have hrhe : ((β ^ (p - 1) : ℕ) : ℤ) ≤ rhe (x * (β : ℚ) ^ ((p : ℤ) - 1 - e)) := by
    calc ((β ^ (p - 1) : ℕ) : ℤ) = rhe ((((β ^ (p - 1) : ℕ) : ℤ) : ℚ)) :=
          (rhe_intCast _).symm
      _ ≤ rhe (x * (β : ℚ) ^ ((p : ℤ) - 1 - e)) := by
          apply rhe_mono
          rw [← hcast]
          exact hmul
  calc (β : ℚ) ^ e = (β : ℚ) ^ ((p : ℤ) - 1) * (β : ℚ) ^ (e - ((p : ℤ) - 1)) := by
        rw [← zpow_add₀ hβne]
        congr 1
        ring
    _ ≤ (rhe (x * (β : ℚ) ^ ((p : ℤ) - 1 - e)) : ℚ) * (β : ℚ) ^ (e - ((p : ℤ) - 1)) := by
        apply mul_le_mul_of_nonneg_right _ (le_of_lt (zpow_pos hβ0 _))
        rw [hcast]
        exact_mod_cast hrhe
    _ = roundFPpos β p x := rfl

theorem roundFPpos_ub (β p : ℕ) (hβ : 2 ≤ β) {x : ℚ} (hx : 0 < x) :
    roundFPpos β p x ≤ (β : ℚ) ^ (floorLogQ β x + 1) := by
  have hβ0 : (0 : ℚ) < β := by exact_mod_cast (by omega : 0 < β)
  have hβne : (β : ℚ) ≠ 0 := ne_of_gt hβ0
  obtain ⟨h1, h2⟩ := floorLogQ_spec β hβ hx
  set e := floorLogQ β x with he
  have hcast : (β : ℚ) ^ ((p : ℤ)) = (((β ^ p : ℕ) : ℤ) : ℚ) := by
    rw [zpow_natCast]
    push_cast
    ring
  have hs : (β : ℚ) ^ (e + 1) * (β : ℚ) ^ ((p : ℤ) - 1 - e) = (β : ℚ) ^ (p : ℤ) := by
    rw [← zpow_add₀ hβne]
    congr 1
    ring
  have hmul : x * (β : ℚ) ^ ((p : ℤ) - 1 - e) ≤ (β : ℚ) ^ (p : ℤ) := by
    calc x * (β : ℚ) ^ ((p : ℤ) - 1 - e)
        ≤ (β : ℚ) ^ (e + 1) * (β : ℚ) ^ ((p : ℤ) - 1 - e) :=
          mul_le_mul_of_nonneg_right (le_of_lt h2) (le_of_lt (zpow_pos hβ0 _))
      _ = (β : ℚ) ^ (p : ℤ) := hs
  have hrhe : rhe (x * (β : ℚ) ^ ((p : ℤ) - 1 - e)) ≤ ((β ^ p : ℕ) : ℤ) := by
    calc rhe (x * (β : ℚ) ^ ((p : ℤ) - 1 - e)) ≤ rhe ((((β ^ p : ℕ) : ℤ) : ℚ)) := by
          apply rhe_mono
          rw [← hcast]
          exact hmul
      _ = ((β ^ p : ℕ) : ℤ) := rhe_intCast _
  calc roundFPpos β p x
      = (rhe (x * (β : ℚ) ^ ((p : ℤ) - 1 - e)) : ℚ) * (β : ℚ) ^ (e - ((p : ℤ) - 1)) := rfl
    _ ≤ (β : ℚ) ^ (p : ℤ) * (β : ℚ) ^ (e - ((p : ℤ) - 1)) := by
        apply mul_le_mul_of_nonneg_right _ (le_of_lt (zpow_pos hβ0 _))
        rw [hcast]
        exact_mod_cast hrhe
    _ = (β : ℚ) ^ (e + 1) := by
        rw [← zpow_add₀ hβne]
        congr 1
        ring

theorem roundFPpos_pos (β p : ℕ) (hβ : 2 ≤ β) (hp : 1 ≤ p) {x : ℚ} (hx : 0 < x) :
    0 < roundFPpos β p x := by
  have hβ0 : (0 : ℚ) < β := by exact_mod_cast (by omega : 0 < β)
  exact lt_of_lt_of_le (zpow_pos hβ0 _) (roundFPpos_lb β p hβ hp hx)

theorem roundFPpos_ge (β p : ℕ) (hβ : 2 ≤ β) {x : ℚ} :
    x - 1 / 2 * (β : ℚ) ^ (floorLogQ β x - ((p : ℤ) - 1)) ≤ roundFPpos β p x := by
  have hβ0 : (0 : ℚ) < β := by exact_mod_cast (by omega : 0 < β)
  have hβne : (β : ℚ) ≠ 0 := ne_of_gt hβ0
  set e := floorLogQ β x with he
  set t := x * (β : ℚ) ^ ((p : ℤ) - 1 - e) with ht
  have hcancel : t * (β : ℚ) ^ (e - ((p : ℤ) - 1)) = x := by
    rw [ht, mul_assoc, ← zpow_add₀ hβne]
    have : (p : ℤ) - 1 - e + (e - ((p : ℤ) - 1)) = 0 := by ring
    rw [this, zpow_zero, mul_one]
  have hge : (t - 1 / 2) * (β : ℚ) ^ (e - ((p : ℤ) - 1)) ≤
      (rhe t : ℚ) * (β : ℚ) ^ (e - ((p : ℤ) - 1)) :=
    mul_le_mul_of_nonneg_right (rhe_ge t) (le_of_lt (zpow_pos hβ0 _))
  calc x - 1 / 2 * (β : ℚ) ^ (e - ((p : ℤ) - 1))
      = (t - 1 / 2) * (β : ℚ) ^ (e - ((p : ℤ) - 1)) := by
        rw [sub_mul, hcancel]
    _ ≤ (rhe t : ℚ) * (β : ℚ) ^ (e - ((p : ℤ) - 1)) := hge
    _ = roundFPpos β p x := rfl

theorem roundFPpos_le (β p : ℕ) (hβ : 2 ≤ β) {x : ℚ} :
    roundFPpos β p x ≤ x + 1 / 2 * (β : ℚ) ^ (floorLogQ β x - ((p : ℤ) - 1)) := by
  have hβ0 : (0 : ℚ) < β := by exact_mod_cast (by omega : 0 < β)
  have hβne : (β : ℚ) ≠ 0 := ne_of_gt hβ0
  set e := floorLogQ β x with he
  set t := x * (β : ℚ) ^ ((p : ℤ) - 1 - e) with ht
  have hcancel : t * (β : ℚ) ^ (e - ((p : ℤ) - 1)) = x := by
    rw [ht, mul_assoc, ← zpow_add₀ hβne]
    have : (p : ℤ) - 1 - e + (e - ((p : ℤ) - 1)) = 0 := by ring
    rw [this, zpow_zero, mul_one]
  calc roundFPpos β p x
      = (rhe t : ℚ) * (β : ℚ) ^ (e - ((p : ℤ) - 1)) := rfl
    _ ≤ (t + 1 / 2) * (β : ℚ) ^ (e - ((p : ℤ) - 1)) :=
        mul_le_mul_of_nonneg_right (rhe_le t) (le_of_lt (zpow_pos hβ0 _))
    _ = x + 1 / 2 * (β : ℚ) ^ (e - ((p : ℤ) - 1)) := by
        rw [add_mul, hcancel]

theorem roundFPpos_mono (β p : ℕ) (hβ : 2 ≤ β) (hp : 1 ≤ p) {x y : ℚ}
    (hx : 0 < x) (hxy : x ≤ y) : roundFPpos β p x ≤ roundFPpos β p y := by
  have hy : 0 < y := lt_of_lt_of_le hx hxy
  have hβ0 : (0 : ℚ) < β := by exact_mod_cast (by omega : 0 < β)
  have hβ1 : (1 : ℚ) < β := by exact_mod_cast (by omega : 1 < β)
  obtain ⟨hx1, hx2⟩ := floorLogQ_spec β hβ hx
  obtain ⟨hy1, hy2⟩ := floorLogQ_spec β hβ hy
  have he : floorLogQ β x ≤ floorLogQ β y := by
    have h := (zpow_lt_zpow_iff_right₀ hβ1).mp
      (lt_of_le_of_lt hx1 (lt_of_le_of_lt hxy hy2))
    omega
  rcases lt_or_eq_of_le he with hlt | heq
  · calc roundFPpos β p x ≤ (β : ℚ) ^ (floorLogQ β x + 1) := roundFPpos_ub β p hβ hx
      _ ≤ (β : ℚ) ^ floorLogQ β y := zpow_le_zpow_right₀ (le_of_lt hβ1) (by omega)
      _ ≤ roundFPpos β p y := roundFPpos_lb β p hβ hp hy
  · simp only [roundFPpos]
    rw [← heq]
    apply mul_le_mul_of_nonneg_right _ (le_of_lt (zpow_pos hβ0 _))
    have := rhe_mono (mul_le_mul_of_nonneg_right hxy
      (le_of_lt (zpow_pos hβ0 ((p : ℤ) - 1 - floorLogQ β x))))
    exact_mod_cast this

theorem roundFP_mono (β p : ℕ) (hβ : 2 ≤ β) (hp : 1 ≤ p) {x y : ℚ}
    (hxy : x ≤ y) : roundFP β p x ≤ roundFP β p y := by
  have key : ∀ z : ℚ, 0 < z → 0 < roundFP β p z := by
    intro z hz
    rw [roundFP, if_neg (ne_of_gt hz), if_pos hz]
    exact roundFPpos_pos β p hβ hp hz
  rcases lt_trichotomy x 0 with hx | hx | hx
  · rcases lt_trichotomy y 0 with hy | hy | hy
    · rw [roundFP, if_neg (ne_of_lt hx), if_neg (not_lt.mpr (le_of_lt hx)),
        roundFP, if_neg (ne_of_lt hy), if_neg (not_lt.mpr (le_of_lt hy))]
      have h1 : 0 < -y := by linarith
      have h2 : -y ≤ -x := by linarith
      have := roundFPpos_mono β p hβ hp h1 h2
      linarith
    · subst hy
      rw [roundFP_zero]
      rw [roundFP, if_neg (ne_of_lt hx), if_neg (not_lt.mpr (le_of_lt hx))]
      have := roundFPpos_pos β p hβ hp (by linarith : (0:ℚ) < -x)
      linarith
    · have h1 : roundFP β p x ≤ 0 := by
        rw [roundFP, if_neg (ne_of_lt hx), if_neg (not_lt.mpr (le_of_lt hx))]
        have := roundFPpos_pos β p hβ hp (by linarith : (0:ℚ) < -x)
        linarith
      exact le_trans h1 (le_of_lt (key y hy))
  · subst hx
    rw [roundFP_zero]
    rcases eq_or_lt_of_le hxy with hy | hy
    · rw [← hy, roundFP_zero]
    · exact le_of_lt (key y hy)
  · rw [roundFP, if_neg (ne_of_gt hx), if_pos hx,
      roundFP, if_neg (ne_of_gt (lt_of_lt_of_le hx hxy)), if_pos (lt_of_lt_of_le hx hxy)]
    exact roundFPpos_mono β p hβ hp hx hxy

theorem roundFP_pos (β p : ℕ) (hβ : 2 ≤ β) (hp : 1 ≤ p) {x : ℚ} (hx : 0 < x) :
    0 < roundFP β p x := by
  rw [roundFP, if_neg (ne_of_gt hx), if_pos hx]
  exact roundFPpos_pos β p hβ hp hx

theorem roundFP_nonneg (β p : ℕ) (hβ : 2 ≤ β) (hp : 1 ≤ p) {x : ℚ} (hx : 0 ≤ x) :
    0 ≤ roundFP β p x := by
  rcases eq_or_lt_of_le hx with h | h
  · rw [← h, roundFP_zero]
  · exact le_of_lt (roundFP_pos β p hβ hp h)

theorem roundFP_eval (β p : ℕ) (hβ : 2 ≤ β) {x : ℚ} (e m : ℤ)
    (h1 : (β : ℚ) ^ e ≤ x) (h2 : x < (β : ℚ) ^ (e + 1))
    (h3 : (m : ℚ) - 1 / 2 < x * (β : ℚ) ^ ((p : ℤ) - 1 - e))
    (h4 : x * (β : ℚ) ^ ((p : ℤ) - 1 - e) < (m : ℚ) + 1 / 2) :
    roundFP β p x = (m : ℚ) * (β : ℚ) ^ (e - ((p : ℤ) - 1)) := by
  have hβ0 : (0 : ℚ) < β := by exact_mod_cast (by omega : 0 < β)
  have hx : 0 < x := lt_of_lt_of_le (zpow_pos hβ0 e) h1
  rw [roundFP, if_neg (ne_of_gt hx), if_pos hx]
  have he : floorLogQ β x = e := floorLogQ_unique β hβ h1 h2
  simp only [roundFPpos, he]
  rw [rhe_eq_of_near m h3 h4]

theorem roundFP_intCast (β p : ℕ) (hβ : 2 ≤ β) (hp : 1 ≤ p) (m : ℤ)
    (h1 : 0 < m) (h2 : m < (β : ℤ) ^ p) : roundFP β p (m : ℚ) = m := by
  have hβ0 : (0 : ℚ) < β := by exact_mod_cast (by omega : 0 < β)
  have hβ1 : (1 : ℚ) < β := by exact_mod_cast (by omega : 1 < β)
  have hβne : (β : ℚ) ≠ 0 := ne_of_gt hβ0
  have hm0 : (0 : ℚ) < m := by exact_mod_cast h1
  obtain ⟨g1, g2⟩ := floorLogQ_spec β hβ hm0
  set e := floorLogQ β (m : ℚ) with he
  have hep : e < (p : ℤ) := by
    have hmp : (m : ℚ) < (β : ℚ) ^ (p : ℤ) := by
      rw [zpow_natCast]
      exact_mod_cast h2
    exact (zpow_lt_zpow_iff_right₀ hβ1).mp (lt_of_le_of_lt g1 hmp)
  have he0 : 0 ≤ e := by
    have h1' : (1 : ℚ) ≤ m := by exact_mod_cast h1
    have : (β : ℚ) ^ (0 : ℤ) < (β : ℚ) ^ (e + 1) := by
      rw [zpow_zero]
      exact lt_of_le_of_lt h1' g2
    have := (zpow_lt_zpow_iff_right₀ hβ1).mp this
    omega
  have hk : ((p : ℤ) - 1 - e) = ((((p : ℤ) - 1 - e).toNat : ℕ) : ℤ) := by omega
  set k := ((p : ℤ) - 1 - e).toNat with hkk
  have hscaled : (m : ℚ) * (β : ℚ) ^ ((p : ℤ) - 1 - e) = ((m * (β : ℤ) ^ k : ℤ) : ℚ) := by
    rw [hk, zpow_natCast]
    push_cast
    ring
  have := roundFP_eval β p hβ e (m * (β : ℤ) ^ k) g1 g2
    (by rw [hscaled]; push_cast; linarith)
    (by rw [hscaled]; push_cast; linarith)
  rw [this]
  push_cast
  rw [← zpow_natCast (β : ℚ) k, ← hk, mul_assoc, ← zpow_add₀ hβne]
  have hzero : (p : ℤ) - 1 - e + (e - ((p : ℤ) - 1)) = 0 := by ring
  rw [hzero, zpow_zero, mul_one]

theorem roundDec_mono {x y : ℚ} (h : x ≤ y) : roundDec x ≤ roundDec y :=
  roundFP_mono 10 28 (by norm_num) (by norm_num) h

theorem roundDec_nonneg {x : ℚ} (h : 0 ≤ x) : 0 ≤ roundDec x :=
  roundFP_nonneg 10 28 (by norm_num) (by norm_num) h

theorem roundDec_pos {x : ℚ} (h : 0 < x) : 0 < roundDec x :=
  roundFP_pos 10 28 (by norm_num) (by norm_num) h

theorem roundDec_zero : roundDec 0 = 0 := roundFP_zero 10 28

theorem toFloat64_mono {x y : ℚ} (h : x ≤ y) : toFloat64 x ≤ toFloat64 y :=
  roundFP_mono 2 53 (by norm_num) (by norm_num) h

theorem toFloat64_zero : toFloat64 0 = 0 := roundFP_zero 2 53

theorem roundDec_eval {x : ℚ} (e m : ℤ)
    (h1 : (10 : ℚ) ^ e ≤ x) (h2 : x < (10 : ℚ) ^ (e + 1))
    (h3 : (m : ℚ) - 1 / 2 < x * (10 : ℚ) ^ (27 - e))
    (h4 : x * (10 : ℚ) ^ (27 - e) < (m : ℚ) + 1 / 2) :
    roundDec x = (m : ℚ) * (10 : ℚ) ^ (e - 27) := by
  have hc : (((10 : ℕ) : ℚ)) = (10 : ℚ) := by norm_num
  have he1 : (((28 : ℕ) : ℤ)) - 1 - e = 27 - e := by norm_num
  have he2 : e - (((28 : ℕ) : ℤ) - 1) = e - 27 := by norm_num
  rw [roundDec, roundFP_eval 10 28 (by norm_num) e m (by rw [hc]; exact h1)
    (by rw [hc]; exact h2) (by rw [hc, he1]; exact h3) (by rw [hc, he1]; exact h4),
    hc, he2]

theorem toFloat64_eval {x : ℚ} (e m : ℤ)
    (h1 : (2 : ℚ) ^ e ≤ x) (h2 : x < (2 : ℚ) ^ (e + 1))
    (h3 : (m : ℚ) - 1 / 2 < x * (2 : ℚ) ^ (52 - e))
    (h4 : x * (2 : ℚ) ^ (52 - e) < (m : ℚ) + 1 / 2) :
    toFloat64 x = (m : ℚ) * (2 : ℚ) ^ (e - 52) := by
  have hc : (((2 : ℕ) : ℚ)) = (2 : ℚ) := by norm_num
  have he1 : (((53 : ℕ) : ℤ)) - 1 - e = 52 - e := by norm_num
  have he2 : e - (((53 : ℕ) : ℤ) - 1) = e - 52 := by norm_num
  rw [toFloat64, roundFP_eval 2 53 (by norm_num) e m (by rw [hc]; exact h1)
    (by rw [hc]; exact h2) (by rw [hc, he1]; exact h3) (by rw [hc, he1]; exact h4),
    hc, he2]

theorem roundDec_intCast (m : ℤ) (h1 : 0 < m) (h2 : m < 10 ^ 28) :
    roundDec (m : ℚ) = m := by
  rw [roundDec, roundFP_intCast 10 28 (by norm_num) (by norm_num) m h1 (by push_cast; exact_mod_cast h2)]

theorem toFloat64_intCast (m : ℤ) (h1 : 0 < m) (h2 : m < 2 ^ 53) :
    toFloat64 (m : ℚ) = m := by
  rw [toFloat64, roundFP_intCast 2 53 (by norm_num) (by norm_num) m h1 (by push_cast; exact_mod_cast h2)]

theorem roundDec_one : roundDec (1 : ℚ) = 1 := by
  have h := roundDec_intCast 1 (by norm_num) (by norm_num)
  exact_mod_cast h

theorem roundDec_two : roundDec (2 : ℚ) = 2 := by
  have h := roundDec_intCast 2 (by norm_num) (by norm_num)
  exact_mod_cast h

theorem roundDec_half : roundDec (1 / 2 : ℚ) = 1 / 2 := by
  have h := roundDec_eval (x := (1 / 2 : ℚ)) (-1) (5 * 10 ^ 27)
    (by norm_num) (by norm_num) (by push_cast; norm_num) (by push_cast; norm_num)
  rw [h]
  norm_num

theorem toFloat64_half : toFloat64 (1 / 2 : ℚ) = 1 / 2 := by
  have h := toFloat64_eval (x := (1 / 2 : ℚ)) (-1) (2 ^ 52)
    (by norm_num) (by norm_num) (by push_cast; norm_num) (by push_cast; norm_num)
  rw [h]
  norm_num

theorem toFloat64_one : toFloat64 (1 : ℚ) = 1 := by
  have h := toFloat64_intCast 1 (by norm_num) (by norm_num)
  exact_mod_cast h

theorem roundDec_collapse : roundDec ((2 ^ 96 + 1 : ℚ) / 2 ^ 96) = 1 := by
  have h := roundDec_eval (x := (2 ^ 96 + 1 : ℚ) / 2 ^ 96) 0 (10 ^ 27)
    (by norm_num) (by norm_num) (by push_cast; norm_num) (by push_cast; norm_num)
  rw [h]
  norm_num

theorem calculate_amounts_dec_eval :
    calculate_amounts_dec 1 (2 ^ 96 + 1) (2 * 2 ^ 96) (2 ^ 96) = (1 / 2, 0) := by
  have hsu : roundDec ((2 * 2 ^ 96 : ℚ) / 2 ^ 96) = 2 := by
    rw [show ((2 * 2 ^ 96 : ℚ) / 2 ^ 96) = 2 by norm_num]
    exact roundDec_two
  have hsl : roundDec ((2 ^ 96 : ℚ) / 2 ^ 96) = 1 := by
    rw [show ((2 ^ 96 : ℚ) / 2 ^ 96) = 1 by norm_num]
    exact roundDec_one
  simp only [calculate_amounts_dec, roundDec_collapse, hsu, hsl]
  rw [if_pos (le_refl (1 : ℚ))]
  have ha0 : amount0_dec 1 2 1 = 1 / 2 := by
    simp only [amount0_dec]
    rw [show ((2 : ℚ) - 1) = 1 by norm_num, roundDec_one, mul_one, roundDec_one,
      show ((2 : ℚ) * 1) = 2 by norm_num, roundDec_two,
      show ((1 : ℚ) / 2) = 1 / 2 from rfl, roundDec_half, toFloat64_half]
  rw [ha0]

theorem calculate_amounts_dec_clamp (L p su sl : ℚ)
    (h : roundDec (sl / 2 ^ 96) ≤ roundDec (su / 2 ^ 96)) :
    calculate_amounts_dec L p su sl =
      (amount0_dec L (roundDec (su / 2 ^ 96))
        (max (roundDec (sl / 2 ^ 96)) (min (roundDec (p / 2 ^ 96)) (roundDec (su / 2 ^ 96)))),
       amount1_dec L (roundDec (sl / 2 ^ 96))
        (max (roundDec (sl / 2 ^ 96)) (min (roundDec (p / 2 ^ 96)) (roundDec (su / 2 ^ 96))))) := by
  have hzero0 : ∀ y : ℚ, amount0_dec L y y = 0 := by
    intro y
    simp only [amount0_dec]
    rw [sub_self, roundDec_zero, mul_zero, roundDec_zero, zero_div, roundDec_zero,
      toFloat64_zero]
  have hzero1 : ∀ y : ℚ, amount1_dec L y y = 0 := by
    intro y
    simp only [amount1_dec]
    rw [sub_self, roundDec_zero, mul_zero, roundDec_zero, toFloat64_zero]
  simp only [calculate_amounts_dec]
  split_ifs with h1 h2
  · rw [max_eq_left ((min_le_left _ _).trans h1), hzero1]
  · rw [min_eq_right h2, max_eq_right h, hzero0]
  · rw [min_eq_left (le_of_lt (not_le.mp h2)), max_eq_right (le_of_lt (not_le.mp h1))]

theorem amount1_dec_mono (L sl : ℚ) (hL : 0 ≤ L) {y1 y2 : ℚ} (h : y1 ≤ y2) :
    amount1_dec L sl y1 ≤ amount1_dec L sl y2 := by
  apply toFloat64_mono
  apply roundDec_mono
  apply mul_le_mul_of_nonneg_left _ hL
  apply roundDec_mono
  linarith

theorem amount0_dec_anti (L su : ℚ) (hL : 0 ≤ L) {y1 y2 : ℚ} (hy1 : 0 < y1)
    (h12 : y1 ≤ y2) (hy2su : y2 ≤ su) (hsu : 0 < su) :
    amount0_dec L su y2 ≤ amount0_dec L su y1 := by
  apply toFloat64_mono
  apply roundDec_mono
  have hN : roundDec (L * roundDec (su - y2)) ≤ roundDec (L * roundDec (su - y1)) := by
    apply roundDec_mono
    apply mul_le_mul_of_nonneg_left _ hL
    apply roundDec_mono
    linarith
  have hN0 : 0 ≤ roundDec (L * roundDec (su - y2)) := by
    apply roundDec_nonneg
    exact mul_nonneg hL (roundDec_nonneg (by linarith))
  have hD1 : 0 < roundDec (su * y1) := roundDec_pos (mul_pos hsu hy1)
  have hD : roundDec (su * y1) ≤ roundDec (su * y2) := by
    apply roundDec_mono
    exact mul_le_mul_of_nonneg_left h12 (le_of_lt hsu)
  exact div_le_div₀ (le_trans hN0 hN) hN hD1 hD

theorem toFloat64_ge_near_one {x : ℚ} (h1 : 1 ≤ x) (h2 : x < 2) :
    x - 1 / 2 ^ 53 ≤ toFloat64 x := by
  have hx : (0 : ℚ) < x := lt_of_lt_of_le one_pos h1
  have he : floorLogQ 2 x = 0 := by
    apply floorLogQ_unique 2 (by norm_num)
    · push_cast
      simpa using h1
    · push_cast
      simpa using h2
  rw [toFloat64, roundFP, if_neg (ne_of_gt hx), if_pos hx]
  have h := roundFPpos_ge 2 53 (by norm_num) (x := x)
  rw [he] at h
  calc x - 1 / 2 ^ 53 = x - 1 / 2 * (((2 : ℕ) : ℚ)) ^ ((0 : ℤ) - (((53 : ℕ) : ℤ) - 1)) := by
        push_cast
        norm_num
    _ ≤ roundFPpos 2 53 x := h

theorem toFloat64_le_near_one {x : ℚ} (h1 : 1 ≤ x) (h2 : x < 2) :
    toFloat64 x ≤ x + 1 / 2 ^ 53 := by
  have hx : (0 : ℚ) < x := lt_of_lt_of_le one_pos h1
  have he : floorLogQ 2 x = 0 := by
    apply floorLogQ_unique 2 (by norm_num)
    · push_cast
      simpa using h1
    · push_cast
      simpa using h2
  rw [toFloat64, roundFP, if_neg (ne_of_gt hx), if_pos hx]
  have h := roundFPpos_le 2 53 (by norm_num) (x := x)
  rw [he] at h
  calc roundFPpos 2 53 x
      ≤ x + 1 / 2 * (((2 : ℕ) : ℚ)) ^ ((0 : ℤ) - (((53 : ℕ) : ℤ) - 1)) := h
    _ = x + 1 / 2 ^ 53 := by
        push_cast
        norm_num

theorem adjust_for_decimals_float_zero (x : ℚ) :
    adjust_for_decimals_float x 0 = toFloat64 x := by
  simp only [adjust_for_decimals_float, if_pos (le_refl (0 : ℤ)), zpow_zero, div_one]

theorem pool_price_float_at_tick_zero :
    get_pool_price_float_adj (2 ^ 96 + 2 ^ 50) 0 0 = (2 ^ 52 + 2 ^ 7) / 2 ^ 52 := by
  have hinner : toFloat64 ((2 ^ 96 + 2 ^ 50 : ℚ) / 2 ^ 96) = (2 ^ 52 + 2 ^ 6) / 2 ^ 52 := by
    have h := toFloat64_eval (x := (2 ^ 96 + 2 ^ 50 : ℚ) / 2 ^ 96) 0 (2 ^ 52 + 2 ^ 6)
      (by norm_num) (by norm_num) (by push_cast; norm_num) (by push_cast; norm_num)
    rw [h]
    norm_num
  have hsq : toFloat64 (((2 ^ 52 + 2 ^ 6 : ℚ) / 2 ^ 52) ^ 2) = (2 ^ 52 + 2 ^ 7) / 2 ^ 52 := by
    have h := toFloat64_eval (x := ((2 ^ 52 + 2 ^ 6 : ℚ) / 2 ^ 52) ^ 2) 0 (2 ^ 52 + 2 ^ 7)
      (by norm_num) (by norm_num) (by push_cast; norm_num) (by push_cast; norm_num)
    rw [h]
    norm_num
  have hlast : toFloat64 ((2 ^ 52 + 2 ^ 7 : ℚ) / 2 ^ 52) = (2 ^ 52 + 2 ^ 7) / 2 ^ 52 := by
    have h := toFloat64_eval (x := (2 ^ 52 + 2 ^ 7 : ℚ) / 2 ^ 52) 0 (2 ^ 52 + 2 ^ 7)
      (by norm_num) (by norm_num) (by push_cast; norm_num) (by push_cast; norm_num)
    rw [h]
    norm_num
  simp only [get_pool_price_float_adj, hinner, hsq]
  rw [show (0 : ℤ) - 0 = 0 by norm_num, adjust_for_decimals_float_zero, hlast]

theorem price_range_float_lower_at_zero :
    (get_price_range_float 0 10 0 0).1 = 1 := by
  simp only [get_price_range_float, pow10001_float, zpow_zero, toFloat64_one]
  rw [show (0 : ℤ) - 0 = 0 by norm_num, adjust_for_decimals_float_zero, toFloat64_one]

theorem price_range_float_upper_bound :
    (2 ^ 52 + 2 ^ 7 : ℚ) / 2 ^ 52 < (get_price_range_float 0 10 0 0).2 := by
  have hc : toFloat64 (10001 / 10000 : ℚ) = 4504049987333233 / 2 ^ 52 := by
    have h := toFloat64_eval (x := (10001 / 10000 : ℚ)) 0 4504049987333233
      (by norm_num) (by norm_num) (by push_cast; norm_num) (by push_cast; norm_num)
    rw [h]
    norm_num
  have hC1 : (1 : ℚ) + 1 / 2 ^ 44 ≤ ((4504049987333233 : ℚ) / 2 ^ 52) ^ (10 : ℤ) := by
    norm_num
  have hC2 : ((4504049987333233 : ℚ) / 2 ^ 52) ^ (10 : ℤ) < 2 - 1 / 2 ^ 52 := by
    norm_num
  set C := ((4504049987333233 : ℚ) / 2 ^ 52) ^ (10 : ℤ) with hCdef
  have hC1' : (1 : ℚ) ≤ C := le_trans (by norm_num) hC1
  have hC2' : C < 2 := lt_trans hC2 (by norm_num)
  have hU_lo : C - 1 / 2 ^ 53 ≤ toFloat64 C := toFloat64_ge_near_one hC1' hC2'
  have hU_hi : toFloat64 C ≤ C + 1 / 2 ^ 53 := toFloat64_le_near_one hC1' hC2'
  have hU1 : (1 : ℚ) ≤ toFloat64 C :=
    le_trans (le_trans (by norm_num) (sub_le_sub_right hC1 (1 / 2 ^ 53))) hU_lo
  have hU2 : toFloat64 C < 2 :=
    lt_of_le_of_lt hU_hi
      (lt_of_lt_of_le (add_lt_add_right hC2 (1 / 2 ^ 53)) (by norm_num))
  have hfinal : toFloat64 C - 1 / 2 ^ 53 ≤ toFloat64 (toFloat64 C) :=
    toFloat64_ge_near_one hU1 hU2
  simp only [get_price_range_float, pow10001_float, hc]
  rw [show (0 : ℤ) - 0 = 0 by norm_num, adjust_for_decimals_float_zero]
  rw [← hCdef]
  calc (2 ^ 52 + 2 ^ 7 : ℚ) / 2 ^ 52
      < 1 + 1 / 2 ^ 44 - 1 / 2 ^ 53 - 1 / 2 ^ 53 := by norm_num
    _ ≤ C - 1 / 2 ^ 53 - 1 / 2 ^ 53 :=
        sub_le_sub_right (sub_le_sub_right hC1 (1 / 2 ^ 53)) (1 / 2 ^ 53)
    _ ≤ toFloat64 C - 1 / 2 ^ 53 := sub_le_sub_right hU_lo (1 / 2 ^ 53)
    _ ≤ toFloat64 (toFloat64 C) := hfinal

/-- C1 evidence: the fee-growth-inside the source computes does not equal
the exact crossing-based decomposition over the 256-bit domain, because
every `Decimal` subtraction is rounded to the context's 28 significant
digits.  With `feeGrowthGlobal = 2^128`, `tickLower.feeGrowthOutside = 1`
and the current tick inside the range, the context-rounded computation
returns `3402823669209384634633746074e11`, not the exact
`2^128 - 1 - 0`; on the small concrete scenario (1000/100/200, current
tick between bounds) it still returns the exact `1000 - 100 - 200 = 700`. -/
theorem fee_growth_inside_context_rounding :
    calculate_fee_growth_inside_dec (2 ^ 128) 1 0 0 1 0 =
      3402823669209384634633746074 * 10 ^ 11 ∧
    (3402823669209384634633746074 * 10 ^ 11 : ℚ) ≠ 2 ^ 128 - 1 - 0 ∧
    calculate_fee_growth_inside_dec 1000 100 200 (-10) 10 0 = 1000 - 100 - 200 := by
  have hround1 : roundDec ((2 : ℚ) ^ 128 - 1) = 3402823669209384634633746074 * 10 ^ 11 := by
    have h := roundDec_eval (x := (2 : ℚ) ^ 128 - 1) 38 3402823669209384634633746074
      (by norm_num) (by norm_num) (by push_cast; norm_num) (by push_cast; norm_num)
    rw [h]
    norm_num
  have hround2 : roundDec ((3402823669209384634633746074 * 10 ^ 11 : ℚ)) =
      3402823669209384634633746074 * 10 ^ 11 := by
    have h := roundDec_eval (x := (3402823669209384634633746074 * 10 ^ 11 : ℚ)) 38
      3402823669209384634633746074
      (by norm_num) (by norm_num) (by push_cast; norm_num) (by push_cast; norm_num)
    rw [h]
    norm_num
  refine ⟨?_, by norm_num, ?_⟩
  · simp only [calculate_fee_growth_inside_dec]
    rw [if_neg (by norm_num : ¬ ((0 : ℤ) ≥ 1)), if_pos (le_refl (0 : ℤ))]
    rw [hround1, sub_zero, hround2]
  · simp only [calculate_fee_growth_inside_dec]
    rw [if_neg (by norm_num : ¬ ((0 : ℤ) ≥ 10)), if_pos (by norm_num : (0 : ℤ) ≥ -10)]
    have h900 : roundDec ((1000 : ℚ) - 100) = 900 := by
      rw [show ((1000 : ℚ) - 100) = ((900 : ℤ) : ℚ) by norm_num]
      rw [roundDec_intCast 900 (by norm_num) (by norm_num)]
      norm_num
    have h700 : roundDec ((900 : ℚ) - 200) = 700 := by
      rw [show ((900 : ℚ) - 200) = ((700 : ℤ) : ℚ) by norm_num]
      rw [roundDec_intCast 700 (by norm_num) (by norm_num)]
      norm_num
    rw [h900, h700]
    norm_num

/-- C3 evidence: the locked-amount computation does not return the exact
three-region piecewise values.  At `liquidity = 1`,
`sqrtPriceX96 = 2^96 + 1`, bounds `[2^96, 2^97]`, the source's 28-digit
rounding collapses `sqrt_price` onto the lower bound, the all-token0
branch is taken, and the result is `(0.5, 0.0)` — while the piecewise
formula of §4.3 (`lockedAmountsSpec`) is in its mixed region with
`amount1 = 2^-96 ≠ 0`. -/
theorem calculate_amounts_dec_branch_collapse :
    calculate_amounts_dec 1 (2 ^ 96 + 1) (2 * 2 ^ 96) (2 ^ 96) = (1 / 2, 0) ∧
    (lockedAmountsSpec 1 ((2 ^ 96 + 1 : ℚ) / 2 ^ 96) 2 1).2 = 1 / 2 ^ 96 ∧
    ((0 : ℚ) ≠ 1 / 2 ^ 96) := by
  refine ⟨calculate_amounts_dec_eval, ?_, by norm_num⟩
  have h1 : ¬ ((2 ^ 96 + 1 : ℚ) / 2 ^ 96 ≤ 1) := by norm_num
  have h2 : ¬ ((2 ^ 96 + 1 : ℚ) / 2 ^ 96 ≥ 2) := by
    rw [ge_iff_le, not_le]
    rw [div_lt_iff₀ (by norm_num : (0:ℚ) < 2 ^ 96)]
    norm_num
  simp only [lockedAmountsSpec, if_neg h1, if_neg h2]
  norm_num

/-- C5 evidence: with the current sqrt-price strictly between the bounds
(`2^96 < 2^96 + 1 < 2^97`), the computation returns `amount1 = 0`, because
the 28-digit rounding collapses the current sqrt-price onto the lower
bound — contradicting the claimed `amount1 > 0` strictly inside the
range. -/
theorem calculate_amounts_dec_inside_zero :
    ((2 ^ 96 : ℚ) < 2 ^ 96 + 1 ∧ (2 ^ 96 + 1 : ℚ) < 2 * 2 ^ 96) ∧
    (calculate_amounts_dec 1 (2 ^ 96 + 1) (2 * 2 ^ 96) (2 ^ 96)).2 = 0 := by
  refine ⟨⟨by norm_num, by norm_num⟩, ?_⟩
  rw [calculate_amounts_dec_eval]

/-- C6: holding liquidity and an ordered positive range fixed, the
locked-amount computation — with the source's per-operation 28-digit
decimal rounding and final binary64 casts — is monotone in the current
Q96 sqrt-price: `amount0` is non-increasing and `amount1` is
non-decreasing, across all three regions (each rounding is monotone, so
monotonicity survives the context rounding). -/
theorem calculate_amounts_dec_monotone :
    ∀ L slx sux p1 p2 : ℚ, 0 ≤ L → 0 < slx → slx < sux → p1 ≤ p2 →
      (calculate_amounts_dec L p2 sux slx).1 ≤ (calculate_amounts_dec L p1 sux slx).1 ∧
      (calculate_amounts_dec L p1 sux slx).2 ≤ (calculate_amounts_dec L p2 sux slx).2 := by
  intro L slx sux p1 p2 hL hsl hlu h12
  have hc : (0 : ℚ) < 2 ^ 96 := by norm_num
  have hsl0 : 0 < roundDec (slx / 2 ^ 96) := roundDec_pos (div_pos hsl hc)
  have hslsu : roundDec (slx / 2 ^ 96) ≤ roundDec (sux / 2 ^ 96) :=
    roundDec_mono (div_le_div_of_le (le_of_lt hc) (le_of_lt hlu))
  have hsu0 : 0 < roundDec (sux / 2 ^ 96) := lt_of_lt_of_le hsl0 hslsu
  have hsc12 : roundDec (p1 / 2 ^ 96) ≤ roundDec (p2 / 2 ^ 96) :=
    roundDec_mono (div_le_div_of_le (le_of_lt hc) h12)
  set sl := roundDec (slx / 2 ^ 96) with hsldef
  set su := roundDec (sux / 2 ^ 96) with hsudef
  set c1 := max sl (min (roundDec (p1 / 2 ^ 96)) su) with hc1def
  set c2 := max sl (min (roundDec (p2 / 2 ^ 96)) su) with hc2def
  have hc10 : 0 < c1 := lt_of_lt_of_le hsl0 (le_max_left _ _)
  have hc12 : c1 ≤ c2 := max_le_max (le_refl _) (min_le_min hsc12 (le_refl _))
  have hc2su : c2 ≤ su := max_le hslsu (min_le_right _ _)
  rw [calculate_amounts_dec_clamp L p1 sux slx hslsu,
    calculate_amounts_dec_clamp L p2 sux slx hslsu]
  constructor
  · exact amount0_dec_anti L su hL hc10 hc12 hc2su hsu0
  · exact amount1_dec_mono L sl hL hc12

/-- C6 witness: moving the current sqrt-price from the lower bound to the
upper bound of the range `[2^96, 2^97]` does not increase `amount0` and
does not decrease `amount1`. -/
theorem calculate_amounts_dec_monotone_witness :
    (calculate_amounts_dec 1 (2 * 2 ^ 96) (2 * 2 ^ 96) (2 ^ 96)).1 ≤
      (calculate_amounts_dec 1 (2 ^ 96) (2 * 2 ^ 96) (2 ^ 96)).1 ∧
    (calculate_amounts_dec 1 (2 ^ 96) (2 * 2 ^ 96) (2 ^ 96)).2 ≤
      (calculate_amounts_dec 1 (2 * 2 ^ 96) (2 * 2 ^ 96) (2 ^ 96)).2 :=
  calculate_amounts_dec_monotone 1 (2 ^ 96) (2 * 2 ^ 96) (2 ^ 96) (2 * 2 ^ 96)
    (by norm_num) (by norm_num) (by norm_num) (by norm_num)

/-- C7 (amended): `is_active` returns true exactly when liquidity is
positive and the binary64 token1-adjusted pool price lies strictly between
the binary64 decimal-adjusted range bounds; and whenever the binary64 pool
price exactly equals the binary64 lower bound price the position is not
active.  The stronger reading "currentTick equals tickLower implies
inactive" fails: see `is_active_float_current_tick_at_lower_bound`. -/
theorem is_active_float_characterization :
    ∀ (liquidity : ℕ) (s : ℚ) (tl tu d0 d1 : ℤ),
      (is_active_float liquidity s tl tu d0 d1 = true ↔
        0 < liquidity ∧
        (get_price_range_float tl tu d0 d1).1 < get_pool_price_float_adj s d0 d1 ∧
        get_pool_price_float_adj s d0 d1 < (get_price_range_float tl tu d0 d1).2) ∧
      (get_pool_price_float_adj s d0 d1 = (get_price_range_float tl tu d0 d1).1 →
        is_active_float liquidity s tl tu d0 d1 = false) := by
  intro liquidity s tl tu d0 d1
  constructor
  · by_cases h : liquidity > 0
    · simp [is_active_float, h]
    · simp [is_active_float, h, Nat.not_lt.mp h]
  · intro heq
    by_cases h : liquidity > 0
    · simp [is_active_float, h, heq]
    · simp [is_active_float, h]

/-- C7 witness: with the pool sqrt-price exactly at the lower boundary
(`sqrtPriceX96 = 2^96`, `tickLower = 0`, equal decimals, so the binary64
pool price `1.0` equals the binary64 lower bound price), `is_active` is
false at liquidity 1. -/
theorem is_active_float_characterization_witness :
    is_active_float 1 (2 ^ 96) 0 10 0 0 = false := by
  apply (is_active_float_characterization 1 (2 ^ 96) 0 10 0 0).2
  have hp : get_pool_price_float_adj (2 ^ 96) 0 0 = 1 := by
    have hinner : toFloat64 ((2 ^ 96 : ℚ) / 2 ^ 96) = 1 := by
      rw [show ((2 ^ 96 : ℚ) / 2 ^ 96) = 1 by norm_num, toFloat64_one]
    simp only [get_pool_price_float_adj, hinner, one_pow, toFloat64_one]
    rw [show (0 : ℤ) - 0 = 0 by norm_num, adjust_for_decimals_float_zero, toFloat64_one]
  rw [hp, price_range_float_lower_at_zero]

/-- C7 counterexample: a consistent snapshot whose current tick equals
`tickLower` but which `is_active` reports as active.  With
`sqrtPriceX96 = 2^96 + 2^50`, equal decimals and tick range `[0, 10]`, the
exact pool price `(sqrtPriceX96/2^96)^2` lies in `[1.0001^0, 1.0001^1)` —
so the pool's current tick is `0 = tickLower` — yet the source's float
comparison returns true, because the binary64 price `1 + 2^-45` sits
strictly inside the boundary tick. -/
theorem is_active_float_current_tick_at_lower_bound :
    ((10001 / 10000 : ℚ) ^ (0 : ℤ) ≤ ((2 ^ 96 + 2 ^ 50 : ℚ) / 2 ^ 96) ^ 2 ∧
      ((2 ^ 96 + 2 ^ 50 : ℚ) / 2 ^ 96) ^ 2 < (10001 / 10000 : ℚ) ^ (0 + 1 : ℤ)) ∧
    is_active_float 1 (2 ^ 96 + 2 ^ 50) 0 10 0 0 = true := by
  refine ⟨⟨by norm_num, by norm_num⟩, ?_⟩
  simp only [is_active_float, pool_price_float_at_tick_zero]
  rw [if_neg (by norm_num : ¬ ¬ (1 : ℕ) > 0)]
  simp only [decide_eq_true_eq]
  constructor
  · rw [price_range_float_lower_at_zero]
    norm_num
  · exact price_range_float_upper_bound
